import Mathlib

/-!
Verification of the request-orchestration engine of the `mcp-server` repository.

The Python sources are shallowly embedded as executable Lean definitions:

* `src/src/mcp_tools_integration.py` — tool abstraction, registry, execution
  framework with history ledger, confidence-gated fallback walk;
* `src/src/tools/tavily_tool.py`, `src/src/tools/jina_tool.py` — per-tool
  confidence scoring and availability predicates;
* `src/src/production_orchestrator.py` — rate limiter, request-size check,
  concurrency gate, history compaction;
* `src/src/cache_manager.py` — Redis-backed cache and bounded in-memory cache.

Machine floats (`time.time()` timestamps, confidence scores) are modelled as
rationals (`Rat`), Python dicts as association lists in insertion order, and
`await`ed provider calls as pure outcome functions (a call either returns a
`ToolResult` or raises, and takes some elapsed time).
-/

set_option linter.unusedVariables false

namespace MCP

/-- Status of a tool execution (`ToolStatus` in `mcp_tools_integration.py`). -/
inductive ToolStatus where
  | success
  | failure
  | timeout
  | notFound
  deriving DecidableEq, Repr

/-- Result of a tool execution (`ToolResult` dataclass).  The `data` payload
(`Optional[Dict[str, Any]]` in the source) is modelled as an optional
association list; only its Python truthiness (non-`None` and non-empty)
is ever inspected by the engine. -/
structure ToolResult where
  status : ToolStatus
  data : Option (List (String × String)) := none
  error : Option String := none
  duration_ms : Rat := 0
  confidence : Rat := 0
  deriving DecidableEq, Repr

/-- `ToolResult.is_success`. -/
def ToolResult.is_success (r : ToolResult) : Bool :=
  r.status == .success

/-- Python truthiness of the optional `data` dict: falsy iff `None` or empty. -/
def dictTruthy : Option (List (String × String)) → Bool
  | none => false
  | some l => !l.isEmpty

/-- Outcome of `await tool.execute(query, **kwargs)`: either a returned
`ToolResult` or a raised exception, together with the elapsed wall time. -/
inductive ExecOutcome where
  | ok (result : ToolResult) (elapsed_ms : Rat)
  | raised (msg : String) (elapsed_ms : Rat)

/-- A registered tool (`BaseTool` subclass): name, priority (lower = tried
first), availability predicate (`is_available`, a pure function of the
configuration), and the provider call itself.  Extra keyword arguments are
threaded through the engine unchanged, so they are folded into `exec`. -/
structure Tool where
  name : String
  priority : Int
  available : Bool
  exec : String → ExecOutcome

/-- `BaseTool.validate_result`: accepted iff the status is success, the
confidence is not below the threshold, and the data payload is truthy. -/
def validateResult (r : ToolResult) (min_confidence : Rat) : Bool :=
  if !r.is_success then false
  else if r.confidence < min_confidence then false
  else if !dictTruthy r.data then false
  else true

/-- `ToolRegistry.register_tool`: Python dict assignment `tools[name] = tool`
overwrites in place when the name is present (keeping its position), else
appends. -/
def registerTool (ts : List Tool) (t : Tool) : List Tool :=
  if ts.any (fun u => u.name == t.name) then
    ts.map (fun u => if u.name == t.name then t else u)
  else
    ts ++ [t]

/-- `ToolRegistry.get_tool`: first (unique, for dict-built lists) tool with
the given name. -/
def getTool (ts : List Tool) (tool_name : String) : Option Tool :=
  ts.find? (fun t => t.name == tool_name)

/-- Stable insertion placing `t` after every element of no greater priority;
folding this over a list from the left is a stable sort, mirroring Python's
stable `sorted(..., key=lambda t: t.priority)`. -/
def insertByPriority (t : Tool) : List Tool → List Tool
  | [] => [t]
  | u :: us => if u.priority ≤ t.priority then u :: insertByPriority t us else t :: u :: us

/-- Stable sort by ascending priority. -/
def sortByPriority (ts : List Tool) : List Tool :=
  ts.foldl (fun acc t => insertByPriority t acc) []

/-- `ToolRegistry.get_available_tools`: available tools sorted by priority. -/
def getAvailableTools (ts : List Tool) : List Tool :=
  sortByPriority (ts.filter (fun t => t.available))

/-- One record of the execution-history ledger
(`MCPToolsFramework.execution_history` entries). -/
structure HistEntry where
  tool : String
  query : String
  status : ToolStatus
  duration_ms : Rat
  timestamp : Rat
  deriving DecidableEq, Repr

/-- `MCPToolsFramework`: the registry contents plus the history ledger. -/
structure Framework where
  tools : List Tool
  execution_history : List HistEntry

/-- `MCPToolsFramework.execute_tool`, at wall-clock time `now`.  A history
entry is appended only on the branch where the tool was found, available, and
its `execute` returned without raising; the exception handler and the two
early returns do not touch the ledger. -/
def executeTool (fw : Framework) (now : Rat) (tool_name query : String) :
    ToolResult × Framework :=
  match getTool fw.tools tool_name with
  | none =>
      ({ status := .notFound, error := some ("Tool not found: " ++ tool_name) }, fw)
  | some tool =>
      if !tool.available then
        ({ status := .failure, error := some ("Tool not available: " ++ tool_name) }, fw)
      else
        match tool.exec query with
        | .ok r d =>
            ({ r with duration_ms := d },
             { fw with execution_history := fw.execution_history ++
                 [{ tool := tool_name, query := query, status := r.status,
                    duration_ms := d, timestamp := now }] })
        | .raised msg d =>
            ({ status := .failure, error := some ("Tool execution failed: " ++ msg),
               duration_ms := d }, fw)

/-- The `ToolResult` that `execute_tool` returns, as a pure function of the
registry contents (the ledger never feeds back into the result). -/
def toolCallResult (ts : List Tool) (tool_name query : String) : ToolResult :=
  match getTool ts tool_name with
  | none =>
      { status := .notFound, error := some ("Tool not found: " ++ tool_name) }
  | some tool =>
      if !tool.available then
        { status := .failure, error := some ("Tool not available: " ++ tool_name) }
      else
        match tool.exec query with
        | .ok r d => { r with duration_ms := d }
        | .raised msg d =>
            { status := .failure, error := some ("Tool execution failed: " ++ msg),
              duration_ms := d }

/-- The ledger entries that one `execute_tool` call appends: one entry on a
normal provider return, none otherwise. -/
def toolCallEntries (ts : List Tool) (now : Rat) (tool_name query : String) :
    List HistEntry :=
  match getTool ts tool_name with
  | none => []
  | some tool =>
      if !tool.available then []
      else
        match tool.exec query with
        | .ok r d =>
            [{ tool := tool_name, query := query, status := r.status,
               duration_ms := d, timestamp := now }]
        | .raised _ _ => []

/-- `execute_tool` decomposes into its pure result and its ledger effect. -/
theorem executeTool_eq (fw : Framework) (now : Rat) (tool_name query : String) :
    executeTool fw now tool_name query =
      (toolCallResult fw.tools tool_name query,
       { fw with execution_history :=
           fw.execution_history ++ toolCallEntries fw.tools now tool_name query }) := by
  unfold executeTool toolCallResult toolCallEntries
  cases h : getTool fw.tools tool_name with
  | none => simp
  | some tool =>
    by_cases ha : tool.available
    · cases he : tool.exec query <;> simp [ha, he]
    · simp [ha]

/-- The generic aggregate result `last_result or ToolResult(status=FAILURE,
error="All tools failed")` falls back to when the loop body never ran. -/
def allFailedResult : ToolResult :=
  { status := .failure, error := some "All tools failed" }

/-- The result returned when no tool is available. -/
def noToolsResult : ToolResult :=
  { status := .notFound, error := some "No available tools found" }

/-- The `for` loop of `execute_with_fallback`: walk the available tools,
returning the first validated result, else recording the last result seen. -/
def ewfGo (now : Rat) (query : String) (min_confidence : Rat) :
    Framework → List Tool → Option ToolResult → ToolResult × Framework
  | fw, [], last => (last.getD allFailedResult, fw)
  | fw, t :: rest, _last =>
      let step := executeTool fw now t.name query
      if validateResult step.1 min_confidence then (step.1, step.2)
      else ewfGo now query min_confidence step.2 rest (some step.1)

/-- `MCPToolsFramework.execute_with_fallback`. -/
def executeWithFallback (fw : Framework) (now : Rat) (query : String)
    (min_confidence : Rat) : ToolResult × Framework :=
  let available := getAvailableTools fw.tools
  if available.isEmpty then (noToolsResult, fw)
  else ewfGo now query min_confidence fw available none

/-- The fallback loop never touches the registry contents. -/
theorem executeTool_tools (fw : Framework) (now : Rat) (tool_name query : String) :
    (executeTool fw now tool_name query).2.tools = fw.tools := by
  rw [executeTool_eq]

/-- Taking one element past the rejected prefix and reading the last element
is the same as "first accepted result, else last result overall". -/
theorem take_takeWhile_getLastD {α : Type} (p : α → Bool) (l : List α) (d : α) :
    (l.take ((l.takeWhile (fun a => !p a)).length + 1)).getLastD d =
      (l.find? p).getD (l.getLastD d) := by
  induction l generalizing d with
  | nil => simp
  | cons a l ih =>
    by_cases h : p a
    · simp [List.takeWhile_cons, List.find?, h]
    · have hb : (!p a) = true := by simp [h]
      rw [List.takeWhile_cons, if_pos hb, List.length_cons, List.take_succ_cons,
        List.getLastD_cons, ih a, List.find?_cons_of_neg _ h, List.getLastD_cons]

/-- Closed form of the fallback loop: with `k` the number of leading rejected
results, the loop returns the `(k+1)`-st result (or the carried-in last result
when the tool list is empty) and appends exactly the ledger entries of the
first `k+1` tools — later tools are never invoked. -/
theorem ewfGo_eq (now : Rat) (query : String) (min_confidence : Rat)
    (ts : List Tool) (fw : Framework) (last : Option ToolResult) :
    ewfGo now query min_confidence fw ts last =
      (let results := ts.map (fun t => toolCallResult fw.tools t.name query)
       let k := (results.takeWhile (fun r => !validateResult r min_confidence)).length
       ((results.take (k + 1)).getLastD (last.getD allFailedResult),
        { fw with execution_history := fw.execution_history ++
            ((ts.take (k + 1)).flatMap (fun t => toolCallEntries fw.tools now t.name query)) })) := by
  induction ts generalizing fw last with
  | nil => simp [ewfGo]
  | cons t rest ih =>
    show (let step := executeTool fw now t.name query
          if validateResult step.1 min_confidence then (step.1, step.2)
          else ewfGo now query min_confidence step.2 rest (some step.1)) = _
    rw [executeTool_eq]
    by_cases hv : validateResult (toolCallResult fw.tools t.name query) min_confidence
    · simp [hv, List.takeWhile_cons]
    · have hb : (!validateResult (toolCallResult fw.tools t.name query) min_confidence) = true := by
        simp [hv]
      simp only [hv, if_false, Bool.false_eq_true]
      rw [ih]
      simp only [List.map_cons, List.takeWhile_cons, hb, if_true, List.length_cons,
        List.take_succ_cons, List.getLastD_cons, Option.getD_some, List.flatMap_cons,
        List.append_assoc]

/-- C1.  `execute_with_fallback`: with no available tool it returns the
NotFound "No available tools found" result and leaves the framework untouched;
otherwise it walks the available tools in priority order and returns the first
result accepted by `validate_result` (status success, confidence at least the
threshold, truthy data), appending ledger entries only for the tools up to and
including the accepting one (later tools are not invoked); if no result is
accepted it returns the actual last `ToolResult` obtained from the final tool,
diagnostics intact, not a freshly built generic failure. -/
theorem c1_execute_with_fallback_spec (fw : Framework) (now : Rat)
    (query : String) (min_confidence : Rat) :
    (getAvailableTools fw.tools = [] →
       executeWithFallback fw now query min_confidence = (noToolsResult, fw)) ∧
    (getAvailableTools fw.tools ≠ [] →
       (let avail := getAvailableTools fw.tools
        let results := avail.map (fun t => toolCallResult fw.tools t.name query)
        let k := (results.takeWhile (fun r => !validateResult r min_confidence)).length
        (executeWithFallback fw now query min_confidence).1 =
            ((results.find? (fun r => validateResult r min_confidence)).getD
              (results.getLastD allFailedResult)) ∧
        (executeWithFallback fw now query min_confidence).2 =
            { fw with execution_history := fw.execution_history ++
                ((avail.take (k + 1)).flatMap (fun t => toolCallEntries fw.tools now t.name query)) })) := by
  constructor
  · intro h
    simp [executeWithFallback, h]
  · intro h
    have hne : (getAvailableTools fw.tools).isEmpty = false := by
      simpa [List.isEmpty_iff] using h
    simp only [executeWithFallback, hne, Bool.false_eq_true, if_false]
    rw [ewfGo_eq]
    exact ⟨take_takeWhile_getLastD (fun r => validateResult r min_confidence) _ _, rfl⟩

/-- A successful but low-confidence provider response. -/
def resLowConf : ToolResult :=
  { status := .success, data := some [("answer", "weak")], confidence := mkRat 3 10 }

/-- A successful high-confidence provider response. -/
def resGood : ToolResult :=
  { status := .success, data := some [("answer", "strong")], confidence := mkRat 8 10 }

/-- Priority-0 tool returning the low-confidence response in 5 ms. -/
def toolAlpha : Tool :=
  { name := "Alpha", priority := 0, available := true, exec := fun _ => .ok resLowConf 5 }

/-- Priority-1 tool returning the high-confidence response in 7 ms. -/
def toolBeta : Tool :=
  { name := "Beta", priority := 1, available := true, exec := fun _ => .ok resGood 7 }

/-- Concrete two-tool framework with an empty ledger. -/
def fwC1 : Framework :=
  { tools := [toolAlpha, toolBeta], execution_history := [] }

/-- Witness for C1: on the two-tool framework with threshold 0.5, the fallback
walk rejects the priority-0 tool's 0.3-confidence result and returns the
priority-1 tool's result, having appended exactly two ledger entries. -/
theorem c1_execute_with_fallback_spec_witness :
    (executeWithFallback fwC1 2 "q" (mkRat 1 2)).1 = { resGood with duration_ms := 7 } ∧
    (executeWithFallback fwC1 2 "q" (mkRat 1 2)).2.execution_history.length = 2 := by
  have hav : getAvailableTools fwC1.tools = [toolAlpha, toolBeta] := rfl
  have hne : getAvailableTools fwC1.tools ≠ [] := by rw [hav]; simp
  have h := (c1_execute_with_fallback_spec fwC1 2 "q" (mkRat 1 2)).2 hne
  refine ⟨h.1.trans (by rw [hav]; decide), ?_⟩
  rw [h.2]
  rw [hav]
  decide

/-- A tool whose provider call raises an exception. -/
def toolBoom : Tool :=
  { name := "Boom", priority := 0, available := true, exec := fun _ => .raised "boom" 1 }

/-- Framework containing only the raising tool, with an empty ledger. -/
def fwBoom : Framework :=
  { tools := [toolBoom], execution_history := [] }

/-- Counterexample to C2: during a fallback walk over `fwBoom`, the only tool
is invoked and its `execute` raises; the walk returns the wrapped failure but
the ledger stays empty — no `ExecutionHistoryEntry` is appended on the
exception path (nor on the not-available or not-found paths). -/
theorem c2_counterexample :
    (executeWithFallback fwBoom 0 "q" (mkRat 1 2)).1 =
      { status := .failure, error := some "Tool execution failed: boom", duration_ms := 1 } ∧
    (executeWithFallback fwBoom 0 "q" (mkRat 1 2)).2.execution_history = [] := by
  constructor <;> decide

/-- C2 (amended): one `execute_tool` call appends exactly one ledger entry when
the named tool is found, available, and its `execute` returns without raising,
and appends nothing otherwise — in particular nothing on the not-found,
not-available, and exception paths. -/
theorem c2_history_append_amended (fw : Framework) (now : Rat) (tool_name query : String) :
    ((executeTool fw now tool_name query).2.execution_history =
        fw.execution_history ++ toolCallEntries fw.tools now tool_name query) ∧
    (∀ t r d, getTool fw.tools tool_name = some t → t.available = true →
        t.exec query = .ok r d →
        toolCallEntries fw.tools now tool_name query =
          [{ tool := tool_name, query := query, status := r.status,
             duration_ms := d, timestamp := now }]) ∧
    (getTool fw.tools tool_name = none →
        (executeTool fw now tool_name query).2.execution_history = fw.execution_history) ∧
    (∀ t, getTool fw.tools tool_name = some t → t.available = false →
        (executeTool fw now tool_name query).2.execution_history = fw.execution_history) ∧
    (∀ t msg d, getTool fw.tools tool_name = some t → t.available = true →
        t.exec query = .raised msg d →
        (executeTool fw now tool_name query).2.execution_history = fw.execution_history) := by
  refine ⟨by rw [executeTool_eq], ?_, ?_, ?_, ?_⟩
  · intro t r d ht ha he
    simp [toolCallEntries, ht, ha, he]
  · intro ht
    rw [executeTool_eq]
    simp [toolCallEntries, ht]
  · intro t ht ha
    rw [executeTool_eq]
    simp [toolCallEntries, ht, ha]
  · intro t msg d ht ha he
    rw [executeTool_eq]
    simp [toolCallEntries, ht, ha, he]

/-- Witness for the amended C2, on the raising tool: the not-appended branch. -/
theorem c2_history_append_amended_witness :
    (executeTool fwBoom 0 "Boom" "q").2.execution_history = [] :=
  ((c2_history_append_amended fwBoom 0 "Boom" "q").2.2.2.2 toolBoom "boom" 1
    rfl rfl rfl).trans rfl

/-! ### Confidence scoring (`tavily_tool.py`, `jina_tool.py`) -/

/-- One scored search item as both tools shape it (`title`, `url`, `content`,
`score`). -/
structure SearchItem where
  title : String
  url : String
  content : String
  score : Rat
  deriving DecidableEq, Repr

/-- The `results` dict both tools pass to `_calculate_confidence`: the query,
the (possibly empty) synthesized answer, and the scored items. -/
structure SearchResults where
  query : String
  answer : String
  results : List SearchItem
  deriving DecidableEq, Repr

/-- `sum(r.get("score", 0.0) for r in result_list)`. -/
def sumScores (l : List SearchItem) : Rat :=
  (l.map (fun it => it.score)).sum

/-- `TavilyTool._calculate_confidence`: returns 0 on an empty (falsy) result
list, else `min(num_factor + score_factor + answer_factor, 1.0)` with
`num_factor = min(n/5, 1) * 0.4`, `score_factor = avg * 0.4`,
`answer_factor = 0.2` iff the answer string is truthy. -/
def tavilyConfidence (rs : SearchResults) : Rat :=
  if rs.results.isEmpty then 0
  else
    let num_results : Rat := (rs.results.length : Rat)
    let num_factor := min (num_results / 5) 1 * (4 / 10)
    let avg_score := sumScores rs.results / num_results
    let score_factor := avg_score * (4 / 10)
    let answer_factor : Rat := if rs.answer = "" then 0 else 2 / 10
    min (num_factor + score_factor + answer_factor) 1

/-- `JinaTool._calculate_confidence`: same factors, but the total is
multiplied by 0.9 before the clamp ("Jina typically has slightly lower
confidence than Tavily", `jina_tool.py` line 287). -/
def jinaConfidence (rs : SearchResults) : Rat :=
  if rs.results.isEmpty then 0
  else
    let num_results : Rat := (rs.results.length : Rat)
    let num_factor := min (num_results / 5) 1 * (4 / 10)
    let avg_score := sumScores rs.results / num_results
    let score_factor := avg_score * (4 / 10)
    let answer_factor : Rat := if rs.answer = "" then 0 else 2 / 10
    min ((num_factor + score_factor + answer_factor) * (9 / 10)) 1

/-- The spec's reference confidence policy, transcribed from its words:
`0.4 * min(resultCount/5, 1) + 0.4 * averageRelevanceScore +
0.2 * (1 if answerPresent else 0)`, clamped to `[0, 1]`. -/
def confidenceFormulaSpec (resultCount : Nat) (averageRelevanceScore : Rat)
    (answerPresent : Bool) : Rat :=
  max 0 (min ((4 / 10) * min ((resultCount : Rat) / 5) 1 +
      (4 / 10) * averageRelevanceScore +
      (2 / 10) * (if answerPresent then 1 else 0)) 1)

/-- Five perfect-score items with a synthesized answer. -/
def perfectResults : SearchResults :=
  { query := "q", answer := "ans",
    results := List.replicate 5 { title := "t", url := "u", content := "c", score := 1 } }

/-- Counterexample to C3: on five perfect-score results with an answer, Tavily
scores 1 but Jina scores 9/10 — the two tools' confidence functions are not
identical on every input, and Jina's value disagrees with the reference
formula there. -/
theorem c3_counterexample :
    tavilyConfidence perfectResults = 1 ∧
    jinaConfidence perfectResults = 9 / 10 ∧
    jinaConfidence perfectResults ≠ tavilyConfidence perfectResults ∧
    jinaConfidence perfectResults ≠
      confidenceFormulaSpec 5 (sumScores perfectResults.results / 5) true := by
  have ha : ¬ ("ans" = "") := by decide
  norm_num [tavilyConfidence, jinaConfidence, confidenceFormulaSpec, perfectResults,
    sumScores, List.replicate, ha, min_def, max_def]

/-- Scores are summed, so nonnegative scores give a nonnegative sum. -/
theorem sumScores_nonneg (l : List SearchItem) (h : ∀ it ∈ l, 0 ≤ it.score) :
    0 ≤ sumScores l := by
  refine List.sum_nonneg ?_
  intro x hx
  obtain ⟨it, hit, rfl⟩ := List.mem_map.1 hx
  exact h it hit

/-- C3 (amended): for a non-empty result list with nonnegative relevance
scores, Tavily's confidence equals the spec's reference formula exactly, while
Jina's is the same total scaled by 0.9 before clamping and hence never exceeds
Tavily's; the two functions are not identical (see the counterexample). -/
theorem c3_confidence_amended (rs : SearchResults)
    (hne : rs.results ≠ [])
    (hnn : ∀ it ∈ rs.results, 0 ≤ it.score) :
    tavilyConfidence rs =
      confidenceFormulaSpec rs.results.length
        (sumScores rs.results / (rs.results.length : Rat)) (rs.answer != "") ∧
    jinaConfidence rs ≤ tavilyConfidence rs := by
  have hemp : rs.results.isEmpty = false := by
    simpa [List.isEmpty_iff] using hne
  have hlen : (0 : Rat) ≤ (rs.results.length : Rat) := by positivity
  have havg : (0 : Rat) ≤ sumScores rs.results / (rs.results.length : Rat) :=
    div_nonneg (sumScores_nonneg rs.results hnn) hlen
  have hmin : (0 : Rat) ≤ min ((rs.results.length : Rat) / 5) 1 :=
    le_min (by positivity) (by norm_num)
  unfold tavilyConfidence jinaConfidence confidenceFormulaSpec
  simp only [hemp, Bool.false_eq_true, if_false]
  have hA : (0 : Rat) ≤ min ((rs.results.length : Rat) / 5) 1 * (4 / 10) := by
    have h410 : (0 : Rat) ≤ 4 / 10 := by norm_num
    exact mul_nonneg hmin h410
  have hB : (0 : Rat) ≤ sumScores rs.results / (rs.results.length : Rat) * (4 / 10) := by
    have h410 : (0 : Rat) ≤ 4 / 10 := by norm_num
    exact mul_nonneg havg h410
  by_cases ha : rs.answer = ""
  · have hb : (rs.answer != "") = false := by simp [ha]
    simp only [ha, if_true, hb, bne_self_eq_false, Bool.false_eq_true, if_false]
    constructor
    · have hsum : (0 : Rat) ≤ min ((rs.results.length : Rat) / 5) 1 * (4 / 10) +
          sumScores rs.results / (rs.results.length : Rat) * (4 / 10) + 0 := by linarith
      rw [show (4 / 10 : Rat) * min ((rs.results.length : Rat) / 5) 1 +
          4 / 10 * (sumScores rs.results / (rs.results.length : Rat)) + 2 / 10 * 0 =
          min ((rs.results.length : Rat) / 5) 1 * (4 / 10) +
          sumScores rs.results / (rs.results.length : Rat) * (4 / 10) + 0 from by ring]
      exact (max_eq_right (le_min hsum (by norm_num))).symm
    · refine min_le_min ?_ le_rfl
      have hsum : (0 : Rat) ≤ min ((rs.results.length : Rat) / 5) 1 * (4 / 10) +
          sumScores rs.results / (rs.results.length : Rat) * (4 / 10) + 0 := by linarith
      linarith
  · have hb : (rs.answer != "") = true := by simpa using ha
    simp only [ha, if_false, hb, eq_self_iff_true, if_true]
    constructor
    · have hsum : (0 : Rat) ≤ min ((rs.results.length : Rat) / 5) 1 * (4 / 10) +
          sumScores rs.results / (rs.results.length : Rat) * (4 / 10) + 2 / 10 := by linarith
      rw [show (4 / 10 : Rat) * min ((rs.results.length : Rat) / 5) 1 +
          4 / 10 * (sumScores rs.results / (rs.results.length : Rat)) + 2 / 10 * 1 =
          min ((rs.results.length : Rat) / 5) 1 * (4 / 10) +
          sumScores rs.results / (rs.results.length : Rat) * (4 / 10) + 2 / 10 from by ring]
      exact (max_eq_right (le_min hsum (by norm_num))).symm
    · refine min_le_min ?_ le_rfl
      have hsum : (0 : Rat) ≤ min ((rs.results.length : Rat) / 5) 1 * (4 / 10) +
          sumScores rs.results / (rs.results.length : Rat) * (4 / 10) + 2 / 10 := by linarith
      linarith

/-- Witness for the amended C3 at the five-perfect-results input. -/
theorem c3_confidence_amended_witness :
    tavilyConfidence perfectResults =
      confidenceFormulaSpec perfectResults.results.length
        (sumScores perfectResults.results / (perfectResults.results.length : Rat))
        (perfectResults.answer != "") ∧
    jinaConfidence perfectResults ≤ tavilyConfidence perfectResults :=
  c3_confidence_amended perfectResults (by decide) (by decide)

/-! ### Rate limiter (`production_orchestrator.py`) -/

/-- `RateLimitConfig`. -/
structure RateLimitConfig where
  max_requests_per_minute : Nat := 60
  max_requests_per_hour : Nat := 1000
  max_concurrent_requests : Nat := 100
  burst_limit : Nat := 10
  deriving DecidableEq, Repr

/-- The three sliding windows `RateLimiter` keeps for one client: lists of
request timestamps in append order. -/
structure RLState where
  requests_per_minute : List Rat := []
  requests_per_hour : List Rat := []
  burst_requests : List Rat := []
  deriving DecidableEq, Repr

/-- `RateLimiter._cleanup_old_requests` for one client at time `now`: keep
only timestamps from the last minute / hour / 10 seconds respectively. -/
def cleanupOldRequests (s : RLState) (now : Rat) : RLState :=
  { requests_per_minute := s.requests_per_minute.filter (fun t => now - t < 60),
    requests_per_hour := s.requests_per_hour.filter (fun t => now - t < 3600),
    burst_requests := s.burst_requests.filter (fun t => now - t < 10) }

/-- `RateLimiter.is_allowed` for one client at time `now`: purge all three
windows, then check burst, then per-minute, then per-hour, rejecting with the
first violated limit's message; on acceptance append `now` to all three
windows. -/
def isAllowed (cfg : RateLimitConfig) (s : RLState) (now : Rat) :
    (Bool × String) × RLState :=
  let s := cleanupOldRequests s now
  let recent_requests := s.burst_requests.filter (fun t => now - t < 10)
  if cfg.burst_limit ≤ recent_requests.length then
    ((false, "Burst limit exceeded: " ++ toString recent_requests.length ++
       " requests in last 10 seconds"), s)
  else if cfg.max_requests_per_minute ≤ s.requests_per_minute.length then
    ((false, "Rate limit exceeded: " ++ toString s.requests_per_minute.length ++
       " requests per minute"), s)
  else if cfg.max_requests_per_hour ≤ s.requests_per_hour.length then
    ((false, "Rate limit exceeded: " ++ toString s.requests_per_hour.length ++
       " requests per hour"), s)
  else
    ((true, "Request allowed"),
     { requests_per_minute := s.requests_per_minute ++ [now],
       requests_per_hour := s.requests_per_hour ++ [now],
       burst_requests := s.burst_requests ++ [now] })

/-- A sequence of admission checks from one client at the given times. -/
def runChecks (cfg : RateLimitConfig) (s : RLState) :
    List Rat → List (Bool × String) × RLState
  | [] => ([], s)
  | t :: ts =>
      let step := isAllowed cfg s t
      let rest := runChecks cfg step.2 ts
      (step.1 :: rest.1, rest.2)

/-- `runChecks` splits over list append. -/
theorem runChecks_append (cfg : RateLimitConfig) (xs ys : List Rat) (s : RLState) :
    runChecks cfg s (xs ++ ys) =
      ((runChecks cfg s xs).1 ++ (runChecks cfg (runChecks cfg s xs).2 ys).1,
       (runChecks cfg (runChecks cfg s xs).2 ys).2) := by
  induction xs generalizing s with
  | nil => simp [runChecks]
  | cons t ts ih => simp [runChecks, ih]

/-- An accepted check leaves the burst window as the purged window plus `now`. -/
theorem isAllowed_true_burst (cfg : RateLimitConfig) (s : RLState) (now : Rat)
    (h : (isAllowed cfg s now).1.1 = true) :
    (isAllowed cfg s now).2.burst_requests =
      s.burst_requests.filter (fun t => now - t < 10) ++ [now] := by
  simp only [isAllowed] at h ⊢
  split at h
  · exact absurd h (by simp)
  · split at h
    · exact absurd h (by simp)
    · split at h
      · exact absurd h (by simp)
      · rename_i h1 h2 h3
        rw [if_neg h1, if_neg h2, if_neg h3]
        simp [cleanupOldRequests]

/-- Processing checks that are all accepted and whose times lie within ten
seconds of each other and of `u` leaves at least one surviving burst-window
timestamp per check when the window is purged at `u`. -/
theorem runChecks_burst_count (cfg : RateLimitConfig) :
    ∀ (pre : List Rat) (s : RLState) (u : Rat),
      (∀ x ∈ pre, (∀ τ ∈ pre, τ - x < 10) ∧ u - x < 10) →
      ((runChecks cfg s pre).1.all (fun p => p.1)) = true →
      (s.burst_requests.filter
          (fun x => pre.all (fun τ => τ - x < 10) && decide (u - x < 10))).length
          + pre.length ≤
        (((runChecks cfg s pre).2.burst_requests).filter
          (fun t => u - t < 10)).length
  | [], s, u, hwin, hall => by
      simp [runChecks]
  | t :: rest, s, u, hwin, hall => by
      rw [runChecks] at hall ⊢
      simp only [List.all_cons, Bool.and_eq_true] at hall
      have hstep : (isAllowed cfg s t).1.1 = true := hall.1
      have hburst := isAllowed_true_burst cfg s t hstep
      have ih := runChecks_burst_count cfg rest (isAllowed cfg s t).2 u
        (fun x hx => ⟨fun τ hτ => (hwin x (List.mem_cons_of_mem t hx)).1 τ
            (List.mem_cons_of_mem t hτ), (hwin x (List.mem_cons_of_mem t hx)).2⟩)
        hall.2
      refine le_trans ?_ ih
      rw [hburst]
      have hgoodt : (rest.all (fun τ => τ - t < 10) && decide (u - t < 10)) = true := by
        have ht := hwin t (List.mem_cons_self t rest)
        simp only [Bool.and_eq_true, List.all_eq_true, decide_eq_true_eq]
        exact ⟨fun τ hτ => ht.1 τ (List.mem_cons_of_mem t hτ), ht.2⟩
      rw [List.filter_append]
      simp only [List.filter_cons, hgoodt, if_true, List.filter_nil, List.length_append,
        List.length_cons, List.length_nil]
      have hmono : (s.burst_requests.filter
          (fun x => (t :: rest).all (fun τ => τ - x < 10) && decide (u - x < 10))).length ≤
          ((s.burst_requests.filter (fun t_1 => t - t_1 < 10)).filter
            (fun x => rest.all (fun τ => τ - x < 10) && decide (u - x < 10))).length := by
        rw [List.filter_filter]
        refine List.Sublist.length_le (List.monotone_filter_right _ ?_)
        intro a ha
        simp only [List.all_cons, Bool.and_eq_true, decide_eq_true_eq] at ha ⊢
        exact ⟨⟨ha.1.2, ha.2⟩, ha.1.1⟩
      omega

/-- C4.  Per-client rate limiting: every check first purges stale timestamps
from all three windows; the limits are tested burst first, then minute, then
hour, and the first violated limit's specific reason is returned — a
burst-level violation yields the burst message whatever the other windows
hold, a burst-passing check over the per-minute limit yields the per-minute
message, one passing both but over the per-hour limit yields the per-hour
message, and one violating none is allowed — every rejection leaving only
the purged state; an accepted check records `now` in all three windows; and
for any sequence of checks whose timestamps all lie in one 10-second window,
if the first `burst_limit` checks are all allowed then the next check is
rejected with the burst-limit reason, independently of the minute and hour
limits. -/
theorem c4_rate_limiter_spec :
    (∀ (cfg : RateLimitConfig) (s : RLState) (now : Rat),
      ((isAllowed cfg s now).1.1 = false → (isAllowed cfg s now).2 = cleanupOldRequests s now) ∧
      ((isAllowed cfg s now).1.1 = true →
        (isAllowed cfg s now).2 =
          { requests_per_minute := (cleanupOldRequests s now).requests_per_minute ++ [now],
            requests_per_hour := (cleanupOldRequests s now).requests_per_hour ++ [now],
            burst_requests := (cleanupOldRequests s now).burst_requests ++ [now] }) ∧
      (cfg.burst_limit ≤ ((cleanupOldRequests s now).burst_requests.filter
            (fun t => now - t < 10)).length →
        (isAllowed cfg s now).1 =
          (false, "Burst limit exceeded: " ++
            toString ((cleanupOldRequests s now).burst_requests.filter
              (fun t => now - t < 10)).length ++ " requests in last 10 seconds")) ∧
      (¬ cfg.burst_limit ≤ ((cleanupOldRequests s now).burst_requests.filter
            (fun t => now - t < 10)).length →
        cfg.max_requests_per_minute ≤ (cleanupOldRequests s now).requests_per_minute.length →
        (isAllowed cfg s now).1 =
          (false, "Rate limit exceeded: " ++
            toString (cleanupOldRequests s now).requests_per_minute.length ++
            " requests per minute")) ∧
      (¬ cfg.burst_limit ≤ ((cleanupOldRequests s now).burst_requests.filter
            (fun t => now - t < 10)).length →
        ¬ cfg.max_requests_per_minute ≤ (cleanupOldRequests s now).requests_per_minute.length →
        cfg.max_requests_per_hour ≤ (cleanupOldRequests s now).requests_per_hour.length →
        (isAllowed cfg s now).1 =
          (false, "Rate limit exceeded: " ++
            toString (cleanupOldRequests s now).requests_per_hour.length ++
            " requests per hour")) ∧
      (¬ cfg.burst_limit ≤ ((cleanupOldRequests s now).burst_requests.filter
            (fun t => now - t < 10)).length →
        ¬ cfg.max_requests_per_minute ≤ (cleanupOldRequests s now).requests_per_minute.length →
        ¬ cfg.max_requests_per_hour ≤ (cleanupOldRequests s now).requests_per_hour.length →
        (isAllowed cfg s now).1 = (true, "Request allowed"))) ∧
    (∀ (cfg : RateLimitConfig) (s0 : RLState) (pre : List Rat) (u : Rat),
      pre.length = cfg.burst_limit →
      (∀ a ∈ pre ++ [u], ∀ b ∈ pre ++ [u], b - a < 10) →
      ((runChecks cfg s0 pre).1.all (fun p => p.1)) = true →
      ∃ n, cfg.burst_limit ≤ n ∧
        (runChecks cfg s0 (pre ++ [u])).1.getLast? =
          some (false, "Burst limit exceeded: " ++ toString n ++
            " requests in last 10 seconds")) := by
  constructor
  · intro cfg s now
    refine ⟨?_, ?_, ?_, ?_, ?_, ?_⟩
    · intro h
      simp only [isAllowed] at h ⊢
      split at h
      · rename_i h1
        rw [if_pos h1]
      · split at h
        · rename_i h1 h2
          rw [if_neg h1, if_pos h2]
        · split at h
          · rename_i h1 h2 h3
            rw [if_neg h1, if_neg h2, if_pos h3]
          · exact absurd h (by simp)
    · intro h
      simp only [isAllowed] at h ⊢
      split at h
      · exact absurd h (by simp)
      · split at h
        · exact absurd h (by simp)
        · split at h
          · exact absurd h (by simp)
          · rename_i h1 h2 h3
            rw [if_neg h1, if_neg h2, if_neg h3]
    · intro h
      simp only [isAllowed]
      rw [if_pos h]
    · intro hb hm
      simp only [isAllowed]
      rw [if_neg hb, if_pos hm]
    · intro hb hm hh
      simp only [isAllowed]
      rw [if_neg hb, if_neg hm, if_pos hh]
    · intro hb hm hh
      simp only [isAllowed]
      rw [if_neg hb, if_neg hm, if_neg hh]
  · intro cfg s0 pre u hlen hwin hall
    have hw : ∀ x ∈ pre, (∀ τ ∈ pre, τ - x < 10) ∧ u - x < 10 := by
      intro x hx
      exact ⟨fun τ hτ => hwin x (by simp [hx]) τ (by simp [hτ]),
        hwin x (by simp [hx]) u (by simp)⟩
    have hcount := runChecks_burst_count cfg pre s0 u hw hall
    have hge : cfg.burst_limit ≤
        (((runChecks cfg s0 pre).2.burst_requests).filter (fun t => u - t < 10)).length := by
      omega
    rw [runChecks_append]
    set sB := (runChecks cfg s0 pre).2 with hsB
    have hrecent : ((cleanupOldRequests sB u).burst_requests.filter
        (fun t => u - t < 10)).length =
        (sB.burst_requests.filter (fun t => u - t < 10)).length := by
      simp [cleanupOldRequests, List.filter_filter]
    refine ⟨((cleanupOldRequests sB u).burst_requests.filter
        (fun t => u - t < 10)).length, ?_, ?_⟩
    · omega
    · rw [runChecks, runChecks]
      have hcond : cfg.burst_limit ≤ ((cleanupOldRequests sB u).burst_requests.filter
          (fun t => u - t < 10)).length := by omega
      simp only [List.getLast?_concat]
      simp only [isAllowed]
      rw [if_pos hcond]

attribute [local semireducible] Rat.sub Rat.add

/-- A burst-limit-2 configuration with roomy minute/hour limits. -/
def cfgBurst2 : RateLimitConfig :=
  { max_requests_per_minute := 60, max_requests_per_hour := 1000,
    max_concurrent_requests := 100, burst_limit := 2 }

/-- A limiter allowing one request per minute with a roomy burst limit. -/
def cfgMinute1 : RateLimitConfig :=
  { max_requests_per_minute := 1, max_requests_per_hour := 1000,
    max_concurrent_requests := 100, burst_limit := 10 }

/-- A client state already holding one request in the minute window. -/
def sMinuteFull : RLState :=
  { requests_per_minute := [0], requests_per_hour := [0], burst_requests := [] }

/-- A limiter allowing one request per hour with roomy burst/minute limits. -/
def cfgHour1 : RateLimitConfig :=
  { max_requests_per_minute := 60, max_requests_per_hour := 1,
    max_concurrent_requests := 100, burst_limit := 10 }

/-- A client state already holding one request in the hour window (outside
the minute window). -/
def sHourFull : RLState :=
  { requests_per_minute := [], requests_per_hour := [0], burst_requests := [] }

/-- Witness for C4: from a fresh client, checks at times 0 and 1 are allowed
and the third check at time 2 is rejected with the burst-limit reason; a
burst-passing check over the per-minute limit is rejected with the per-minute
reason, and one over only the per-hour limit with the per-hour reason.
(`Rat.sub`/`Rat.add` are made semireducible so `decide` can evaluate.) -/
theorem c4_rate_limiter_spec_witness :
    (∃ n, cfgBurst2.burst_limit ≤ n ∧
      (runChecks cfgBurst2 {} ([0, 1] ++ [2])).1.getLast? =
        some (false, "Burst limit exceeded: " ++ toString n ++
          " requests in last 10 seconds")) ∧
    (isAllowed cfgMinute1 sMinuteFull 5).1 =
      (false, "Rate limit exceeded: " ++
        toString (cleanupOldRequests sMinuteFull 5).requests_per_minute.length ++
        " requests per minute") ∧
    (isAllowed cfgHour1 sHourFull 5).1 =
      (false, "Rate limit exceeded: " ++
        toString (cleanupOldRequests sHourFull 5).requests_per_hour.length ++
        " requests per hour") :=
  ⟨c4_rate_limiter_spec.2 cfgBurst2 {} [0, 1] 2 (by decide) (by decide) (by decide),
   (c4_rate_limiter_spec.1 cfgMinute1 sMinuteFull 5).2.2.2.1 (by decide) (by decide),
   (c4_rate_limiter_spec.1 cfgHour1 sHourFull 5).2.2.2.2.1
     (by decide) (by decide) (by decide)⟩

/-! ### Production gate (`production_orchestrator.py`) -/

/-- `MemoryConfig`. -/
structure MemoryConfig where
  max_execution_history : Nat := 1000
  max_request_size_mb : Nat := 10
  cleanup_interval_seconds : Nat := 300
  deriving DecidableEq, Repr

/-- `MemoryManager.validate_request_size`: the serialized request payload's
byte count (produced externally by `json.dumps(...).encode("utf-8")` and taken
here as an input) divided by 1024² and compared against the configured
maximum in MB.  Python renders the megabyte figure with two decimals in the
message; the reason string here carries the exact rational instead, a
presentation detail no caller inspects. -/
def validateRequestSize (cfg : MemoryConfig) (request_size : Nat) : Bool × String :=
  let size_mb : Rat := (request_size : Rat) / (1024 * 1024)
  if (cfg.max_request_size_mb : Rat) < size_mb then
    (false, "Request too large: " ++ toString size_mb ++ "MB > " ++
      toString cfg.max_request_size_mb ++ "MB")
  else
    (true, "Request size OK")

/-- `AgnoResponse` as the production gate shapes it; the gate's metadata keys
`rate_limited` and `size_exceeded` are modelled as explicit flags. -/
structure AgnoResponse where
  success : Bool
  error : Option String := none
  rate_limited : Bool := false
  size_exceeded : Bool := false
  deriving DecidableEq, Repr

/-- Observable actions inside `ProductionOrchestrator.process_request`'s
`async with self.semaphore` block, in order. -/
inductive GateEvent where
  | slotAcquired
  | baseCalled
  | slotReleased
  deriving DecidableEq, Repr

/-- Outcome of `await base_orchestrator.process_request(...)`: a response or a
raised exception (caught by the gate's handler). -/
inductive BaseOutcome where
  | ok (resp : AgnoResponse)
  | raised (msg : String)

/-- `ProductionOrchestrator.process_request` for one request: check the rate
limiter, then the request size, returning the corresponding error immediately
on either rejection; only then acquire the semaphore slot, call the base
orchestrator (its exception handler yielding the internal-error response) and
release the slot.  The transient active-request record, added after acquiring
and removed in the `finally` block, cancels out and is not tracked; the
periodic memory cleanup is covered separately by `cleanupHistory`. -/
def processRequest (rl_cfg : RateLimitConfig) (mem_cfg : MemoryConfig)
    (rl : RLState) (now : Rat) (request_size : Nat) (base : BaseOutcome) :
    AgnoResponse × RLState × List GateEvent :=
  let check := isAllowed rl_cfg rl now
  if !check.1.1 then
    ({ success := false, error := some ("Rate limit exceeded: " ++ check.1.2),
       rate_limited := true }, check.2, [])
  else
    let size_check := validateRequestSize mem_cfg request_size
    if !size_check.1 then
      ({ success := false, error := some ("Request too large: " ++ size_check.2),
         size_exceeded := true }, check.2, [])
    else
      match base with
      | .ok resp => (resp, check.2, [.slotAcquired, .baseCalled, .slotReleased])
      | .raised msg =>
          ({ success := false, error := some ("Internal error: " ++ msg) },
           check.2, [.slotAcquired, .baseCalled, .slotReleased])

/-- C5.  Pre-admission rejection: a request the rate limiter rejects is
answered immediately with the rate-limit error, and a request whose payload
is oversized is answered immediately with the size error, in both cases with
no gate event at all — the semaphore slot is never acquired and the base
orchestrator is never invoked; conversely, any gate event implies both
admission checks passed. -/
theorem c5_pre_admission_rejection (rl_cfg : RateLimitConfig) (mem_cfg : MemoryConfig)
    (rl : RLState) (now : Rat) (request_size : Nat) (base : BaseOutcome) :
    ((isAllowed rl_cfg rl now).1.1 = false →
      processRequest rl_cfg mem_cfg rl now request_size base =
        ({ success := false,
           error := some ("Rate limit exceeded: " ++ (isAllowed rl_cfg rl now).1.2),
           rate_limited := true }, (isAllowed rl_cfg rl now).2, [])) ∧
    ((isAllowed rl_cfg rl now).1.1 = true →
      (validateRequestSize mem_cfg request_size).1 = false →
      processRequest rl_cfg mem_cfg rl now request_size base =
        ({ success := false,
           error := some ("Request too large: " ++ (validateRequestSize mem_cfg request_size).2),
           size_exceeded := true }, (isAllowed rl_cfg rl now).2, [])) ∧
    (∀ e ∈ (processRequest rl_cfg mem_cfg rl now request_size base).2.2,
      (isAllowed rl_cfg rl now).1.1 = true ∧
      (validateRequestSize mem_cfg request_size).1 = true) := by
  refine ⟨?_, ?_, ?_⟩
  · intro h
    simp [processRequest, h]
  · intro h hs
    simp [processRequest, h, hs]
  · intro e he
    by_cases h : (isAllowed rl_cfg rl now).1.1
    · by_cases hs : (validateRequestSize mem_cfg request_size).1
      · exact ⟨h, hs⟩
      · simp [processRequest, h, hs] at he
    · simp [processRequest, h] at he

/-- A zero-burst limiter configuration: every request is rate-limited. -/
def cfgBurst0 : RateLimitConfig :=
  { max_requests_per_minute := 60, max_requests_per_hour := 1000,
    max_concurrent_requests := 100, burst_limit := 0 }

/-- Witness for C5: with a zero-burst limiter every request is rejected
pre-admission, producing the rate-limit error and no gate event. -/
theorem c5_pre_admission_rejection_witness :
    processRequest cfgBurst0 {} {} 0 5 (.ok { success := true }) =
      ({ success := false,
         error := some "Rate limit exceeded: Burst limit exceeded: 0 requests in last 10 seconds",
         rate_limited := true }, {}, []) :=
  ((c5_pre_admission_rejection cfgBurst0 {} {} 0 5 (.ok { success := true })).1
    (by decide)).trans (by decide)

/-! ### Ledger compaction (`MemoryManager.cleanup_history`) -/

/-- `MemoryManager.cleanup_history`: the list unchanged while within the cap,
else the Python slice `history_list[-max:]`.  For `max = 0` that slice is
`[-0:]`, i.e. `[0:]`, the whole list. -/
def cleanupHistory (max_execution_history : Nat) (l : List HistEntry) : List HistEntry :=
  if l.length ≤ max_execution_history then l
  else if max_execution_history = 0 then l
  else l.drop (l.length - max_execution_history)

/-- A ledger already at a configured maximum of 2 entries. -/
def fwFull : Framework :=
  { tools := [toolAlpha],
    execution_history :=
      [{ tool := "Alpha", query := "a", status := .success, duration_ms := 1, timestamp := 0 },
       { tool := "Alpha", query := "b", status := .success, duration_ms := 1, timestamp := 1 }] }

/-- Counterexample to C6: with the configured maximum at 2 and the ledger
already holding 2 entries, one more `execute_tool` invocation leaves 3 entries
— appending does not cap the ledger; only the periodic `cleanup_history` pass
does. -/
theorem c6_counterexample :
    ({ max_execution_history := 2 : MemoryConfig }).max_execution_history = 2 ∧
    fwFull.execution_history.length = 2 ∧
    (executeTool fwFull 2 "Alpha" "q").2.execution_history.length = 3 := by
  refine ⟨rfl, rfl, ?_⟩
  decide

/-- C6 (amended): the ledger may exceed the configured maximum between
compactions (appends never truncate); one `cleanup_history` pass with a
positive configured maximum caps the ledger at exactly
`min (length) (maximum)`, and what it keeps is a suffix of the ledger — the
most recent entries, oldest discarded first. -/
theorem c6_cleanup_history_amended (m : Nat) (l : List HistEntry) (hm : 1 ≤ m) :
    (cleanupHistory m l).length = min l.length m ∧
    ∃ pre, l = pre ++ cleanupHistory m l := by
  unfold cleanupHistory
  by_cases h : l.length ≤ m
  · rw [if_pos h]
    exact ⟨(Nat.min_eq_left h).symm, [], by simp⟩
  · rw [if_neg h, if_neg (by omega)]
    constructor
    · rw [List.length_drop]
      omega
    · exact ⟨l.take (l.length - m), (List.take_append_drop _ l).symm⟩

/-- Witness for the amended C6: capping a 3-entry ledger at 2 keeps the last
2 entries. -/
theorem c6_cleanup_history_amended_witness :
    (cleanupHistory 2 (executeTool fwFull 2 "Alpha" "q").2.execution_history).length =
      min (executeTool fwFull 2 "Alpha" "q").2.execution_history.length 2 ∧
    ∃ pre, (executeTool fwFull 2 "Alpha" "q").2.execution_history =
      pre ++ cleanupHistory 2 (executeTool fwFull 2 "Alpha" "q").2.execution_history :=
  c6_cleanup_history_amended 2 _ (by decide)

/-! ### Association-list model of Python dicts (`cache_manager.py` state) -/

section AList

variable {α : Type} {β : Type} [DecidableEq α]

/-- Dict read: value at the first occurrence of the key. -/
def alistGet (k : α) : List (α × β) → Option β
  | [] => none
  | (k', v) :: rest => if k' = k then some v else alistGet k rest

/-- Dict write `d[k] = v`: overwrite in place, keeping the key's position,
else append. -/
def alistSet (k : α) (v : β) : List (α × β) → List (α × β)
  | [] => [(k, v)]
  | (k', v') :: rest => if k' = k then (k, v) :: rest else (k', v') :: alistSet k v rest

/-- Dict delete `d.pop(k, None)`: drop the first occurrence of the key. -/
def alistErase (k : α) : List (α × β) → List (α × β)
  | [] => []
  | (k', v') :: rest => if k' = k then rest else (k', v') :: alistErase k rest

theorem alistGet_alistSet_self (k : α) (v : β) (l : List (α × β)) :
    alistGet k (alistSet k v l) = some v := by
  induction l with
  | nil => simp [alistGet, alistSet]
  | cons p rest ih =>
    by_cases h : p.1 = k
    · simp [alistSet, alistGet, h]
    · simp [alistSet, alistGet, h, ih]

theorem alistGet_alistErase_ne (k k' : α) (l : List (α × β)) (h : k' ≠ k) :
    alistGet k (alistErase k' l) = alistGet k l := by
  induction l with
  | nil => rfl
  | cons p rest ih =>
    by_cases hp : p.1 = k'
    · simp [alistErase, alistGet, hp, h, ih]
    · by_cases hk : p.1 = k <;> simp [alistErase, alistGet, hp, hk, h, Ne.symm h, ih]

theorem map_fst_alistSet (k : α) (v : β) (l : List (α × β)) :
    (alistSet k v l).map Prod.fst =
      if k ∈ l.map Prod.fst then l.map Prod.fst else l.map Prod.fst ++ [k] := by
  induction l with
  | nil => simp [alistSet]
  | cons p rest ih =>
    by_cases h : p.1 = k
    · simp [alistSet, h]
    · have hne : ¬ k = p.1 := fun hh => h hh.symm
      by_cases hm : k ∈ rest.map Prod.fst <;>
        simp [alistSet, h, hne, hm, ih]

theorem length_alistSet_mem (k : α) (v : β) (l : List (α × β))
    (h : k ∈ l.map Prod.fst) : (alistSet k v l).length = l.length := by
  induction l with
  | nil => simp at h
  | cons p rest ih =>
    by_cases hp : p.1 = k
    · simp [alistSet, hp]
    · have h2 : k = p.1 ∨ k ∈ rest.map Prod.fst := by simpa using h
      have hm : k ∈ rest.map Prod.fst := h2.resolve_left (fun hh => hp hh.symm)
      simp [alistSet, hp, ih hm]

theorem alistSet_not_mem (k : α) (v : β) (l : List (α × β))
    (h : ¬ k ∈ l.map Prod.fst) : alistSet k v l = l ++ [(k, v)] := by
  induction l with
  | nil => simp [alistSet]
  | cons p rest ih =>
    have hp : ¬ p.1 = k := fun hh => h (by simp [hh])
    have hm : ¬ k ∈ rest.map Prod.fst := fun hh => h (by simp [hh])
    simp [alistSet, hp, ih hm]

theorem length_alistErase_mem (k : α) (l : List (α × β))
    (h : k ∈ l.map Prod.fst) : (alistErase k l).length = l.length - 1 := by
  induction l with
  | nil => simp at h
  | cons p rest ih =>
    by_cases hp : p.1 = k
    · simp [alistErase, hp]
    · have h2 : k = p.1 ∨ k ∈ rest.map Prod.fst := by simpa using h
      have hm : k ∈ rest.map Prod.fst := h2.resolve_left (fun hh => hp hh.symm)
      have hlen : 1 ≤ rest.length := by
        cases rest with
        | nil => simp at hm
        | cons a b => simp
      simp [alistErase, hp, ih hm]
      omega

theorem mem_map_fst_alistErase (k k' : α) (l : List (α × β)) (hne : k ≠ k')
    (h : k ∈ l.map Prod.fst) : k ∈ (alistErase k' l).map Prod.fst := by
  induction l with
  | nil => simp at h
  | cons p rest ih =>
    have h2 : k = p.1 ∨ k ∈ rest.map Prod.fst := by simpa using h
    by_cases hp : p.1 = k'
    · have hm : k ∈ rest.map Prod.fst :=
        h2.resolve_left (fun hh => hne (by rw [hh, hp]))
      simpa [alistErase, hp] using hm
    · rcases h2 with h1 | h1
      · simp [alistErase, hp, h1]
      · simpa [alistErase, hp] using Or.inr (ih h1)

end AList

section SortByAccess

variable {α : Type}

/-- Insert a (key, time) pair after every pair with a time not above it;
folded from the left this is Python's stable `sorted(items, key=lambda x: x[1])`. -/
def insertByAccess (p : α × Rat) : List (α × Rat) → List (α × Rat)
  | [] => [p]
  | q :: qs => if q.2 ≤ p.2 then q :: insertByAccess p qs else p :: q :: qs

/-- Stable sort of (key, access-time) pairs by ascending time. -/
def sortByAccess (l : List (α × Rat)) : List (α × Rat) :=
  l.foldl (fun acc p => insertByAccess p acc) []

theorem insertByAccess_perm (p : α × Rat) (l : List (α × Rat)) :
    List.Perm (insertByAccess p l) (p :: l) := by
  induction l with
  | nil => simp [insertByAccess]
  | cons q qs ih =>
    by_cases h : q.2 ≤ p.2
    · simp only [insertByAccess, h, if_true]
      exact (ih.cons q).trans (List.Perm.swap p q qs)
    · simp [insertByAccess, h]

theorem sortByAccess_perm (l : List (α × Rat)) : List.Perm (sortByAccess l) l := by
  have aux : ∀ (l acc : List (α × Rat)),
      List.Perm (l.foldl (fun acc p => insertByAccess p acc) acc) (acc ++ l) := by
    intro l
    induction l with
    | nil => intro acc; simp
    | cons p rest ih =>
      intro acc
      refine (ih (insertByAccess p acc)).trans ?_
      refine (List.Perm.append_right rest (insertByAccess_perm p acc)).trans ?_
      exact List.perm_middle.symm
  simpa using aux l []

theorem mem_insertByAccess {x p : α × Rat} {l : List (α × Rat)} :
    x ∈ insertByAccess p l ↔ x = p ∨ x ∈ l :=
  (insertByAccess_perm p l).mem_iff.trans (by simp)

theorem insertByAccess_pairwise {p : α × Rat} {l : List (α × Rat)}
    (h : l.Pairwise (fun a b => a.2 ≤ b.2)) :
    (insertByAccess p l).Pairwise (fun a b => a.2 ≤ b.2) := by
  induction l with
  | nil => simp [insertByAccess]
  | cons q qs ih =>
    rcases List.pairwise_cons.1 h with ⟨hq, hqs⟩
    by_cases hle : q.2 ≤ p.2
    · simp only [insertByAccess, hle, if_true]
      refine List.pairwise_cons.2 ⟨?_, ih hqs⟩
      intro x hx
      rcases mem_insertByAccess.1 hx with rfl | hx
      · exact hle
      · exact hq x hx
    · have hpq : p.2 ≤ q.2 := le_of_lt (lt_of_not_le hle)
      simp only [insertByAccess, hle, if_false]
      refine List.pairwise_cons.2 ⟨?_, h⟩
      intro x hx
      rcases List.mem_cons.1 hx with rfl | hx
      · exact hpq
      · exact le_trans hpq (hq x hx)

theorem sortByAccess_pairwise (l : List (α × Rat)) :
    (sortByAccess l).Pairwise (fun a b => a.2 ≤ b.2) := by
  have aux : ∀ (l acc : List (α × Rat)), acc.Pairwise (fun a b => a.2 ≤ b.2) →
      (l.foldl (fun acc p => insertByAccess p acc) acc).Pairwise (fun a b => a.2 ≤ b.2) := by
    intro l
    induction l with
    | nil => intro acc h; simpa using h
    | cons p rest ih => intro acc h; exact ih _ (insertByAccess_pairwise h)
  exact aux l [] (by simp)

theorem insertByAccess_of_all_le (p : α × Rat) (l : List (α × Rat))
    (h : ∀ x ∈ l, x.2 ≤ p.2) : insertByAccess p l = l ++ [p] := by
  induction l with
  | nil => simp [insertByAccess]
  | cons q qs ih =>
    have hq : q.2 ≤ p.2 := h q (by simp)
    simp [insertByAccess, hq, ih (fun x hx => h x (by simp [hx]))]

theorem sortByAccess_append_of_le (l : List (α × Rat)) (p : α × Rat)
    (h : ∀ x ∈ l, x.2 ≤ p.2) :
    sortByAccess (l ++ [p]) = sortByAccess l ++ [p] := by
  have h1 : sortByAccess (l ++ [p]) = insertByAccess p (sortByAccess l) := by
    simp [sortByAccess, List.foldl_append]
  rw [h1]
  exact insertByAccess_of_all_le p (sortByAccess l)
    (fun x hx => h x ((sortByAccess_perm l).mem_iff.1 hx))

theorem sortByAccess_length (l : List (α × Rat)) :
    (sortByAccess l).length = l.length :=
  (sortByAccess_perm l).length_eq

end SortByAccess

/-! ### Bounded in-memory cache (`MemoryCacheManager` in `cache_manager.py`) -/

/-- Lexicographic order for `sorted(kwargs.items())` over string pairs. -/
def pairLe (a b : String × String) : Bool :=
  a.1 < b.1 || (a.1 = b.1 && !(b.2 < a.2))

/-- Stable insertion for `sorted(kwargs.items())`. -/
def insertPairSorted (p : String × String) :
    List (String × String) → List (String × String)
  | [] => [p]
  | q :: qs => if pairLe q p then q :: insertPairSorted p qs else p :: q :: qs

/-- Python's stable `sorted(kwargs.items())`. -/
def sortPairs (l : List (String × String)) : List (String × String) :=
  l.foldl (fun acc p => insertPairSorted p acc) []

/-- The cache fingerprint space.  `_generate_cache_key` MD5-hashes the
canonical JSON of the query and the sorted parameter items; distinct canonical
inputs are treated as giving distinct fingerprints, so the fingerprint is
modelled by the canonical input itself. -/
abbrev CacheKey := String × List (String × String)

/-- `_generate_cache_key(query, **kwargs)`. -/
def generateCacheKey (query : String) (params : List (String × String)) : CacheKey :=
  (query, sortPairs params)

/-- One stored entry of the in-memory cache:
`{"result": ..., "cached_at": ..., "ttl": ...}`. -/
structure CacheEntry (V : Type) where
  result : V
  cached_at : Rat
  ttl : Int
  deriving Repr

/-- `MemoryCacheManager` state: capacity, default TTL, and the two dicts
`self.cache` and `self.access_times` in insertion order. -/
structure MemCache (V : Type) where
  max_size : Nat := 1000
  default_ttl : Int := 3600
  cache : List (CacheKey × CacheEntry V) := []
  access_times : List (CacheKey × Rat) := []

/-- `ttl = ttl or self.default_ttl`: Python `or` replaces a falsy left operand
— both `None` and `0` — with the default. -/
def ttlOrDefault (default_ttl : Int) : Option Int → Int
  | none => default_ttl
  | some t => if t = 0 then default_ttl else t

/-- `MemoryCacheManager.get_cached_result` at time `now`: a hit whose age
strictly exceeds its TTL is deleted from both dicts and reported absent; a
live hit refreshes its access time. -/
def getCachedResult {V : Type} (c : MemCache V) (now : Rat)
    (query : String) (params : List (String × String)) : Option V × MemCache V :=
  let cache_key := generateCacheKey query params
  match alistGet cache_key c.cache with
  | some entry =>
      if (entry.ttl : Rat) < now - entry.cached_at then
        (none, { c with cache := alistErase cache_key c.cache,
                        access_times := alistErase cache_key c.access_times })
      else
        (some entry.result,
         { c with access_times := alistSet cache_key now c.access_times })
  | none => (none, c)

/-- `MemoryCacheManager._cleanup_old_entries`: while over capacity, drop the
`len - max_size` keys with the oldest access times (Python's stable sort ties
broken by dict order) from both dicts. -/
def cleanupOldEntries {V : Type} (c : MemCache V) : MemCache V :=
  if c.cache.length ≤ c.max_size then c
  else
    let sorted_entries := sortByAccess c.access_times
    let entries_to_remove := c.cache.length - c.max_size
    (sorted_entries.take entries_to_remove).foldl
      (fun acc p => { acc with cache := alistErase p.1 acc.cache,
                               access_times := alistErase p.1 acc.access_times }) c

/-- `MemoryCacheManager.cache_result` at time `now`: store the entry under its
fingerprint with the effective TTL, stamp its access time, then enforce the
capacity bound. -/
def cacheResult {V : Type} (c : MemCache V) (now : Rat) (query : String)
    (result : V) (ttl : Option Int) (params : List (String × String)) :
    Bool × MemCache V :=
  let cache_key := generateCacheKey query params
  let t := ttlOrDefault c.default_ttl ttl
  let c1 := { c with
    cache := alistSet cache_key { result := result, cached_at := now, ttl := t } c.cache,
    access_times := alistSet cache_key now c.access_times }
  (true, cleanupOldEntries c1)

/-- Deleting a key from both dicts (`cache.pop` / `access_times.pop`). -/
def eraseBoth {V : Type} (c : MemCache V) (k : CacheKey) : MemCache V :=
  { c with cache := alistErase k c.cache, access_times := alistErase k c.access_times }

/-- A key that is not among the evicted ones still maps to its entry after
`_cleanup_old_entries`. -/
theorem alistGet_cleanupOldEntries {V : Type} (c1 : MemCache V) (k : CacheKey)
    (e : CacheEntry V)
    (hget : alistGet k c1.cache = some e)
    (hsafe : ∀ p ∈ (sortByAccess c1.access_times).take (c1.cache.length - c1.max_size),
      p.1 ≠ k) :
    alistGet k (cleanupOldEntries c1).cache = some e := by
  have aux : ∀ (ks : List (CacheKey × Rat)) (acc : MemCache V),
      (∀ p ∈ ks, p.1 ≠ k) → alistGet k acc.cache = some e →
      alistGet k ((ks.foldl (fun acc p =>
        { acc with cache := alistErase p.1 acc.cache,
                   access_times := alistErase p.1 acc.access_times }) acc)).cache = some e := by
    intro ks
    induction ks with
    | nil => intro acc _ h; simpa using h
    | cons p rest ih =>
      intro acc hks h
      refine ih _ (fun q hq => hks q (by simp [hq])) ?_
      show alistGet k (alistErase p.1 acc.cache) = some e
      rw [alistGet_alistErase_ne k p.1 _ (hks p (by simp))]
      exact h
  by_cases hlen : c1.cache.length ≤ c1.max_size
  · rw [cleanupOldEntries, if_pos hlen]
    exact hget
  · simp only [cleanupOldEntries, hlen, if_false]
    exact aux _ c1 hsafe hget

/-- The post-write state of `cache_result` before the capacity cleanup:
store the entry and stamp the access time under the same fingerprint. -/
def storeBoth {V : Type} (c : MemCache V) (k : CacheKey) (e : CacheEntry V)
    (now : Rat) : MemCache V :=
  { c with cache := alistSet k e c.cache, access_times := alistSet k now c.access_times }

/-- `cache_result` is exactly: store, stamp, then enforce the bound. -/
theorem cacheResult_eq {V : Type} (c : MemCache V) (now : Rat) (query : String)
    (v : V) (ttl : Option Int) (params : List (String × String)) :
    cacheResult c now query v ttl params =
      (true, cleanupOldEntries (storeBoth c (generateCacheKey query params)
        { result := v, cached_at := now, ttl := ttlOrDefault c.default_ttl ttl } now)) :=
  rfl

/-- The freshly stored entry survives `cache_result`'s capacity cleanup and is
read back, provided the pre-state is within a positive capacity, the two dicts
hold the same keys, no recorded access time lies in the future, and the
effective TTL is nonnegative. -/
theorem memCache_set_get {V : Type} (c : MemCache V) (now : Rat) (query : String)
    (v : V) (ttl : Option Int) (params : List (String × String))
    (hcap : c.cache.length ≤ c.max_size)
    (hmax : 1 ≤ c.max_size)
    (hsync : c.cache.map Prod.fst = c.access_times.map Prod.fst)
    (htime : ∀ p ∈ c.access_times, p.2 ≤ now)
    (httl : 0 ≤ ttlOrDefault c.default_ttl ttl) :
    (getCachedResult (cacheResult c now query v ttl params).2 now query params).1 =
      some v := by
  have hlc : c.cache.length = c.access_times.length := by
    have h2 := congrArg List.length hsync
    simpa using h2
  rw [cacheResult_eq]
  set k := generateCacheKey query params with hk
  set t := ttlOrDefault c.default_ttl ttl with ht
  set e : CacheEntry V := { result := v, cached_at := now, ttl := t } with he
  have hget : alistGet k (cleanupOldEntries (storeBoth c k e now)).cache = some e := by
    refine alistGet_cleanupOldEntries _ k e (alistGet_alistSet_self k e c.cache) ?_
    show ∀ p ∈ (sortByAccess (alistSet k now c.access_times)).take
        ((alistSet k e c.cache).length - c.max_size), p.1 ≠ k
    by_cases hmem : k ∈ c.cache.map Prod.fst
    · have hzero : (alistSet k e c.cache).length - c.max_size = 0 := by
        rw [length_alistSet_mem k e c.cache hmem]
        omega
      rw [hzero]
      simp
    · have hmem2 : ¬ k ∈ c.access_times.map Prod.fst := by rw [← hsync]; exact hmem
      have hsetc : alistSet k e c.cache = c.cache ++ [(k, e)] :=
        alistSet_not_mem _ _ _ hmem
      have hseta : alistSet k now c.access_times = c.access_times ++ [(k, now)] :=
        alistSet_not_mem _ _ _ hmem2
      have hsort : sortByAccess (alistSet k now c.access_times) =
          sortByAccess c.access_times ++ [(k, now)] := by
        rw [hseta]
        exact sortByAccess_append_of_le _ _ htime
      have hlen1 : (alistSet k e c.cache).length = c.cache.length + 1 := by
        rw [hsetc]; simp
      have hn : (alistSet k e c.cache).length - c.max_size ≤
          (sortByAccess c.access_times).length := by
        rw [sortByAccess_length, hlen1]
        omega
      intro p hp
      rw [hsort, List.take_append_of_le_length hn] at hp
      have hpmem : p ∈ c.access_times :=
        (sortByAccess_perm _).mem_iff.1 ((List.take_sublist _ _).mem hp)
      intro hh
      exact hmem2 (hh ▸ List.mem_map.2 ⟨p, hpmem, rfl⟩)
  have hnexp : ¬ ((e.ttl : Rat) < now - e.cached_at) := by
    show ¬ ((t : Rat) < now - now)
    rw [sub_self]
    exact not_lt.mpr (by exact_mod_cast httl)
  simp only [getCachedResult, ← hk, hget, hnexp, if_false]

/-- C7 (amended).  In-memory cache round trip: `cache_result` followed
immediately by `get_cached_result` on the same (query, params) returns the
stored payload whenever the pre-state is a consistent cache within a positive
capacity with no future-dated access times and the *effective* TTL — the
given TTL if nonzero, else the default (`ttl or self.default_ttl` treats a
given TTL of 0 as absent) — is nonnegative; and any read that finds an entry
whose age strictly exceeds its stored TTL reports it absent and deletes it
from both dicts. -/
theorem c7_cache_roundtrip_amended {V : Type} :
    (∀ (c : MemCache V) (now : Rat) (query : String) (v : V) (ttl : Option Int)
        (params : List (String × String)),
      c.cache.length ≤ c.max_size → 1 ≤ c.max_size →
      c.cache.map Prod.fst = c.access_times.map Prod.fst →
      (∀ p ∈ c.access_times, p.2 ≤ now) →
      0 ≤ ttlOrDefault c.default_ttl ttl →
      (getCachedResult (cacheResult c now query v ttl params).2 now query params).1 =
        some v) ∧
    (∀ (c : MemCache V) (now : Rat) (query : String) (params : List (String × String))
        (e : CacheEntry V),
      alistGet (generateCacheKey query params) c.cache = some e →
      (e.ttl : Rat) < now - e.cached_at →
      getCachedResult c now query params =
        (none, eraseBoth c (generateCacheKey query params))) := by
  constructor
  · intro c now query v ttl params hcap hmax hsync htime httl
    exact memCache_set_get c now query v ttl params hcap hmax hsync htime httl
  · intro c now query params e hlookup hexp
    simp only [getCachedResult, hlookup, hexp, if_true, eraseBoth]

/-- An expired one-entry in-memory cache (stored at 0 with TTL 5, read at 6). -/
def memExpired : MemCache String :=
  { max_size := 10, default_ttl := 3600,
    cache := [(("q", []), { result := "v", cached_at := 0, ttl := 5 })],
    access_times := [(("q", []), 0)] }

/-- Witness for the amended C7: a fresh store/read round trip returns the
payload, and the expired entry is reported absent and deleted. -/
theorem c7_cache_roundtrip_amended_witness :
    (getCachedResult (cacheResult ({ max_size := 10 } : MemCache String)
        0 "q" "v" (some 5) []).2 0 "q" []).1 = some "v" ∧
    getCachedResult memExpired 6 "q" [] =
      (none, eraseBoth memExpired (generateCacheKey "q" [])) :=
  ⟨(c7_cache_roundtrip_amended.1 { max_size := 10 } 0 "q" "v" (some 5) []
      (by decide) (by decide) rfl (by simp) (by decide)),
   (c7_cache_roundtrip_amended.2 memExpired 6 "q" []
      { result := "v", cached_at := 0, ttl := 5 } rfl (by decide))⟩

/-- Counterexample to C7: with a requested TTL of 0, `ttl or self.default_ttl`
replaces it by the default (3600), so a read 1 second later — strictly past
the requested TTL — still returns the payload instead of absent. -/
theorem c7_counterexample :
    ttlOrDefault 3600 (some 0) = 3600 ∧
    (((0 : Int) : Rat) < 1 - 0) ∧
    (getCachedResult (cacheResult ({ max_size := 10 } : MemCache String)
        0 "q" "v" (some 0) []).2 1 "q" []).1 = some "v" := by
  refine ⟨rfl, by decide, by decide⟩

/-! ### Capacity bound and LRU eviction of the in-memory cache -/

/-- Consistency of a `MemoryCacheManager` state, maintained by all its
operations: the two dicts hold the same keys in the same order, keys are
unique, and the store is within capacity. -/
def WellFormed {V : Type} (c : MemCache V) : Prop :=
  c.cache.map Prod.fst = c.access_times.map Prod.fst ∧
  (c.cache.map Prod.fst).Nodup ∧
  c.cache.length ≤ c.max_size

/-- Removing the first occurrence of a key from a key list (the shadow of
`alistErase` on keys). -/
def keysErase {α : Type} [DecidableEq α] (k : α) : List α → List α
  | [] => []
  | a :: rest => if a = k then rest else a :: keysErase k rest

/-- Erasing a key commutes with taking the key list. -/
theorem map_fst_alistErase_eq {α β : Type} [DecidableEq α] (k : α)
    (l : List (α × β)) :
    (alistErase k l).map Prod.fst = keysErase k (l.map Prod.fst) := by
  induction l with
  | nil => rfl
  | cons p rest ih =>
    by_cases hp : p.1 = k <;> simp [alistErase, keysErase, hp, ih]

theorem mem_keysErase {α : Type} [DecidableEq α] {x k : α} {l : List α}
    (h : x ∈ keysErase k l) : x ∈ l := by
  induction l with
  | nil => simp [keysErase] at h
  | cons a rest ih =>
    by_cases ha : a = k
    · simp only [keysErase, ha, if_true] at h
      exact List.mem_cons_of_mem a h
    · simp only [keysErase, ha, if_false] at h
      rcases List.mem_cons.1 h with rfl | h2
      · exact List.mem_cons_self x rest
      · exact List.mem_cons_of_mem a (ih h2)

theorem mem_keysErase_of_ne {α : Type} [DecidableEq α] {x k : α} {l : List α}
    (hne : x ≠ k) (h : x ∈ l) : x ∈ keysErase k l := by
  induction l with
  | nil => simp at h
  | cons a rest ih =>
    by_cases ha : a = k
    · simp only [keysErase, ha, if_true]
      rcases List.mem_cons.1 h with rfl | h2
      · exact absurd ha hne
      · exact h2
    · simp only [keysErase, ha, if_false]
      rcases List.mem_cons.1 h with rfl | h2
      · exact List.mem_cons_self x _
      · exact List.mem_cons_of_mem a (ih h2)

theorem keysErase_nodup {α : Type} [DecidableEq α] (k : α) {l : List α}
    (h : l.Nodup) : (keysErase k l).Nodup := by
  induction l with
  | nil => simp [keysErase]
  | cons a rest ih =>
    rcases List.nodup_cons.1 h with ⟨ha, hrest⟩
    by_cases hak : a = k
    · simpa [keysErase, hak] using hrest
    · simp only [keysErase, hak, if_false]
      exact List.nodup_cons.2 ⟨fun hm => ha (mem_keysErase hm), ih hrest⟩

/-- The eviction loop of `_cleanup_old_entries`: pop each listed key from
both dicts in turn. -/
def evictList {V : Type} (acc : MemCache V) (ks : List (CacheKey × Rat)) : MemCache V :=
  ks.foldl (fun acc p => eraseBoth acc p.1) acc

/-- `_cleanup_old_entries` is exactly: while over capacity, evict the keys of
the `len - max_size` oldest-accessed entries. -/
theorem cleanupOldEntries_eq {V : Type} (c : MemCache V) :
    cleanupOldEntries c =
      if c.cache.length ≤ c.max_size then c
      else evictList c ((sortByAccess c.access_times).take
        (c.cache.length - c.max_size)) :=
  rfl

/-- Evicting distinct, present keys keeps the dicts in sync with unique keys
and removes exactly one entry per key. -/
theorem evictList_spec {V : Type} (ks : List (CacheKey × Rat)) :
    ∀ acc : MemCache V,
      acc.cache.map Prod.fst = acc.access_times.map Prod.fst →
      (acc.cache.map Prod.fst).Nodup →
      (ks.map Prod.fst).Nodup →
      (∀ p ∈ ks, p.1 ∈ acc.cache.map Prod.fst) →
      (evictList acc ks).cache.map Prod.fst =
          (evictList acc ks).access_times.map Prod.fst ∧
        ((evictList acc ks).cache.map Prod.fst).Nodup ∧
        (evictList acc ks).cache.length = acc.cache.length - ks.length ∧
        (evictList acc ks).max_size = acc.max_size := by
  induction ks with
  | nil =>
    intro acc hsync hnodup _ _
    exact ⟨hsync, hnodup, by simp [evictList], rfl⟩
  | cons p rest ih =>
    intro acc hsync hnodup hks hmem
    have hstep : evictList acc (p :: rest) = evictList (eraseBoth acc p.1) rest := by
      simp [evictList]
    have hpmem : p.1 ∈ acc.cache.map Prod.fst := hmem p (by simp)
    have hknodup : (rest.map Prod.fst).Nodup ∧ ¬ p.1 ∈ rest.map Prod.fst := by
      have h2 := hks
      simp only [List.map_cons, List.nodup_cons] at h2
      exact ⟨h2.2, h2.1⟩
    have hsync2 : (alistErase p.1 acc.cache).map Prod.fst =
        (alistErase p.1 acc.access_times).map Prod.fst := by
      rw [map_fst_alistErase_eq, map_fst_alistErase_eq, hsync]
    have hnodup2 : ((alistErase p.1 acc.cache).map Prod.fst).Nodup := by
      rw [map_fst_alistErase_eq]
      exact keysErase_nodup p.1 hnodup
    have hmem2 : ∀ q ∈ rest, q.1 ∈ (alistErase p.1 acc.cache).map Prod.fst := by
      intro q hq
      have hqne : q.1 ≠ p.1 := by
        intro hh
        exact hknodup.2 (hh ▸ List.mem_map.2 ⟨q, hq, rfl⟩)
      rw [map_fst_alistErase_eq]
      exact mem_keysErase_of_ne hqne (hmem q (by simp [hq]))
    rw [hstep]
    obtain ⟨r1, r2, r3, r4⟩ := ih (eraseBoth acc p.1) hsync2 hnodup2 hknodup.1 hmem2
    refine ⟨r1, r2, ?_, r4⟩
    rw [r3]
    show (alistErase p.1 acc.cache).length - rest.length = _
    rw [length_alistErase_mem p.1 acc.cache hpmem]
    have : 1 ≤ acc.cache.length := by
      cases hc : acc.cache with
      | nil => rw [hc] at hpmem; simp at hpmem
      | cons a b => simp
    simp only [List.length_cons]
    omega

/-- `cache_result` preserves well-formedness (same keys in both dicts, unique,
within capacity) and never changes the configured capacity. -/
theorem cacheResult_wellFormed {V : Type} (c : MemCache V) (now : Rat)
    (query : String) (v : V) (ttl : Option Int) (params : List (String × String))
    (hwf : WellFormed c) :
    WellFormed (cacheResult c now query v ttl params).2 ∧
      (cacheResult c now query v ttl params).2.max_size = c.max_size := by
  obtain ⟨hsync, hnodup, hcap⟩ := hwf
  rw [cacheResult_eq]
  set k := generateCacheKey query params with hk
  set e : CacheEntry V :=
    { result := v, cached_at := now, ttl := ttlOrDefault c.default_ttl ttl } with he
  have hc1sync : (storeBoth c k e now).cache.map Prod.fst =
      (storeBoth c k e now).access_times.map Prod.fst := by
    show (alistSet k e c.cache).map Prod.fst = (alistSet k now c.access_times).map Prod.fst
    rw [map_fst_alistSet, map_fst_alistSet, hsync]
  have hc1nodup : ((storeBoth c k e now).cache.map Prod.fst).Nodup := by
    show ((alistSet k e c.cache).map Prod.fst).Nodup
    rw [map_fst_alistSet]
    by_cases hmem : k ∈ c.cache.map Prod.fst
    · rw [if_pos hmem]; exact hnodup
    · rw [if_neg hmem]
      simp [List.nodup_append, hnodup, hmem]
  have hc1len : (storeBoth c k e now).cache.length ≤ c.cache.length + 1 := by
    show (alistSet k e c.cache).length ≤ _
    by_cases hmem : k ∈ c.cache.map Prod.fst
    · rw [length_alistSet_mem _ _ _ hmem]; omega
    · rw [alistSet_not_mem _ _ _ hmem]; simp
  rw [cleanupOldEntries_eq]
  by_cases hlen : (storeBoth c k e now).cache.length ≤ (storeBoth c k e now).max_size
  · rw [if_pos hlen]
    exact ⟨⟨hc1sync, hc1nodup, hlen⟩, rfl⟩
  · rw [if_neg hlen]
    have hacclen : (storeBoth c k e now).access_times.length =
        (storeBoth c k e now).cache.length := by
      have h2 := congrArg List.length hc1sync
      simpa using h2.symm
    have hsortlen : (sortByAccess (storeBoth c k e now).access_times).length =
        (storeBoth c k e now).cache.length := by
      rw [sortByAccess_length, hacclen]
    have hperm : List.Perm
        ((sortByAccess (storeBoth c k e now).access_times).map Prod.fst)
        ((storeBoth c k e now).access_times.map Prod.fst) :=
      (sortByAccess_perm _).map Prod.fst
    have hsortnodup : ((sortByAccess (storeBoth c k e now).access_times).map Prod.fst).Nodup :=
      hperm.nodup_iff.2 (hc1sync ▸ hc1nodup)
    set n := (storeBoth c k e now).cache.length - (storeBoth c k e now).max_size with hn
    have hksnodup : ((((sortByAccess (storeBoth c k e now).access_times)).take n).map
        Prod.fst).Nodup := by
      rw [List.map_take]
      exact (List.take_sublist _ _).nodup hsortnodup
    have hksmem : ∀ p ∈ (sortByAccess (storeBoth c k e now).access_times).take n,
        p.1 ∈ (storeBoth c k e now).cache.map Prod.fst := by
      intro p hp
      have hpmem : p ∈ (storeBoth c k e now).access_times :=
        (sortByAccess_perm _).mem_iff.1 ((List.take_sublist _ _).mem hp)
      rw [hc1sync]
      exact List.mem_map.2 ⟨p, hpmem, rfl⟩
    obtain ⟨r1, r2, r3, r4⟩ := evictList_spec _ _ hc1sync hc1nodup hksnodup hksmem
    have hkslen : ((sortByAccess (storeBoth c k e now).access_times).take n).length = n := by
      rw [List.length_take, hsortlen]
      omega
    refine ⟨⟨r1, r2, ?_⟩, r4⟩
    rw [r3, hkslen, r4]
    omega

/-- C8.  In-memory cache boundedness and LRU policy: `cache_result` keeps a
well-formed store well-formed — in particular at most `max_size` entries
remain after every completed call, the capacity itself never changing; the
eviction order is by oldest last-access time first (every entry in the evicted
prefix of the access-time sort is no younger than every surviving one); and a
read that finds a live entry refreshes that entry's last-access time to `now`. -/
theorem c8_cache_bounded_lru :
    (∀ {V : Type} (c : MemCache V) (now : Rat) (query : String) (v : V)
        (ttl : Option Int) (params : List (String × String)),
      WellFormed c →
      WellFormed (cacheResult c now query v ttl params).2 ∧
        (cacheResult c now query v ttl params).2.max_size = c.max_size ∧
        (cacheResult c now query v ttl params).2.cache.length ≤ c.max_size) ∧
    (∀ {α : Type} (l : List (α × Rat)) (n : Nat),
      ∀ p ∈ (sortByAccess l).take n, ∀ r ∈ (sortByAccess l).drop n, p.2 ≤ r.2) ∧
    (∀ {V : Type} (c : MemCache V) (now : Rat) (query : String)
        (params : List (String × String)) (e : CacheEntry V),
      alistGet (generateCacheKey query params) c.cache = some e →
      ¬ ((e.ttl : Rat) < now - e.cached_at) →
      (getCachedResult c now query params).2.access_times =
        alistSet (generateCacheKey query params) now c.access_times ∧
      alistGet (generateCacheKey query params)
        (getCachedResult c now query params).2.access_times = some now) := by
  refine ⟨?_, ?_, ?_⟩
  · intro V c now query v ttl params hwf
    obtain ⟨hwf2, hmax⟩ := cacheResult_wellFormed c now query v ttl params hwf
    exact ⟨hwf2, hmax, hmax ▸ hwf2.2.2⟩
  · intro α l n p hp r hr
    have h := sortByAccess_pairwise l
    rw [← List.take_append_drop n (sortByAccess l)] at h
    exact (List.pairwise_append.1 h).2.2 p hp r hr
  · intro V c now query params e hlookup hnexp
    have hstate : (getCachedResult c now query params).2.access_times =
        alistSet (generateCacheKey query params) now c.access_times := by
      simp only [getCachedResult, hlookup, hnexp, if_false]
    exact ⟨hstate, hstate ▸ alistGet_alistSet_self _ _ _⟩

/-- A full two-entry cache of capacity 2. -/
def memFull2 : MemCache String :=
  { max_size := 2, default_ttl := 3600,
    cache := [(("a", []), { result := "v1", cached_at := 0, ttl := 3600 }),
              (("b", []), { result := "v2", cached_at := 1, ttl := 3600 })],
    access_times := [(("a", []), 0), (("b", []), 1)] }

/-- Witness for C8: one over-capacity insertion into a full two-entry cache of
capacity 2 leaves exactly 2 entries. -/
theorem c8_cache_bounded_lru_witness :
    WellFormed (cacheResult memFull2 4 "c" "v3" none []).2 ∧
      (cacheResult memFull2 4 "c" "v3" none []).2.max_size = memFull2.max_size ∧
      (cacheResult memFull2 4 "c" "v3" none []).2.cache.length ≤ memFull2.max_size :=
  c8_cache_bounded_lru.1 memFull2 4 "c" "v3" none []
    ⟨rfl, by decide, by decide⟩

/-! ### Persistent (Redis-backed) backend vs in-memory backend (`CacheManager`) -/

/-- JSON-safe Python values as the cache backends store and round-trip them
(`json.dumps` / `json.loads`). -/
inductive PyVal where
  | str (s : String)
  | num (q : Rat)
  | boolean (b : Bool)
  | null
  | arr (items : List PyVal)
  | dict (entries : List (String × PyVal))

/-- Read a top-level key of a JSON object. -/
def pyDictGet (k : String) : PyVal → Option PyVal
  | .dict l => alistGet k l
  | _ => none

/-- Number of top-level keys of a JSON object. -/
def pyDictSize : PyVal → Nat
  | .dict l => l.length
  | _ => 0

/-- The two `CacheConfig` fields the modelled operations read
(`default_ttl = 3600`, `cache_prefix = "agno:"`); the Redis URL, compression
flag and size bound configure only the external client. -/
structure CacheConfig where
  default_ttl : Int := 3600
  cache_pre : String := "agno:"

/-- Modelled from the spec: the remote key-value service behind the
persistent backend (§6 "Cache backend", §4.5 "delegates storage to a remote
key-value service").  Missing from `src/`: only the `redis` client calls
(`setex`, `get`) appear in `cache_manager.py`.  Each key holds a value with
the time it was stored and its expiry in seconds; JSON serialization
round-trips JSON-safe values and is modelled as the identity on `PyVal`. -/
structure RedisStore where
  entries : List ((String × CacheKey) × (PyVal × Rat × Int)) := []

/-- Modelled from the spec: `redis.setex(key, ttl, value)` — store the value
under the key with expiry `ttl` seconds from now, replacing any previous
value. -/
def redisSetex (st : RedisStore) (k : String × CacheKey) (ttl : Int) (v : PyVal)
    (now : Rat) : RedisStore :=
  { entries := alistSet k (v, now, ttl) st.entries }

/-- Modelled from the spec: `redis.get(key)` — the stored value while its
expiry has not elapsed. -/
def redisGet (st : RedisStore) (k : String × CacheKey) (now : Rat) : Option PyVal :=
  match alistGet k st.entries with
  | some (v, stored_at, ttl) => if now - stored_at < (ttl : Rat) then some v else none
  | none => none

/-- The cache metadata envelope `CacheManager.cache_result` serializes:
`{"result": ..., "cached_at": ..., "query": ..., "params": ...}`
(`cache_manager.py` lines 128-133). -/
def cacheEnvelope (result : PyVal) (now : Rat) (query : String)
    (params : List (String × String)) : PyVal :=
  .dict [("result", result), ("cached_at", .num now), ("query", .str query),
    ("params", .dict (params.map (fun p => (p.1, .str p.2))))]

/-- `CacheManager.cache_result` (Redis client connected): wrap the payload in
the metadata envelope and `setex` its JSON under the prefixed fingerprint,
with `ttl or self.config.default_ttl`. -/
def cmCacheResult (cfg : CacheConfig) (st : RedisStore) (now : Rat)
    (query : String) (result : PyVal) (ttl : Option Int)
    (params : List (String × String)) : Bool × RedisStore :=
  let k := (cfg.cache_pre, generateCacheKey query params)
  let t := ttlOrDefault cfg.default_ttl ttl
  (true, redisSetex st k t (cacheEnvelope result now query params) now)

/-- `CacheManager.get_cached_result` (Redis client connected): `json.loads`
of the stored string — the whole envelope, not the bare payload
(`cache_manager.py` lines 87-92). -/
def cmGetCachedResult (cfg : CacheConfig) (st : RedisStore) (now : Rat)
    (query : String) (params : List (String × String)) : Option PyVal :=
  redisGet st (cfg.cache_pre, generateCacheKey query params) now

/-- A bare one-key payload. -/
def payloadC9 : PyVal := .dict [("answer", .str "x")]

/-- Counterexample to C9: after the same set, the Redis backend's get returns
the four-key metadata envelope while the memory backend's get returns the
bare one-key payload — the two backends do not return the same value (and the
memory backend offers no invalidate operation at all). -/
theorem c9_counterexample :
    cmGetCachedResult {} (cmCacheResult {} {} 0 "q" payloadC9 none []).2 0 "q" [] =
      some (cacheEnvelope payloadC9 0 "q" []) ∧
    (getCachedResult (cacheResult ({} : MemCache PyVal) 0 "q" payloadC9 none []).2
        0 "q" []).1 = some payloadC9 ∧
    cacheEnvelope payloadC9 0 "q" [] ≠ payloadC9 := by
  refine ⟨rfl, rfl, fun h => ?_⟩
  have h2 := congrArg pyDictSize h
  revert h2
  decide

/-- C9 (amended).  The two backends share get/set/stats but are not
interchangeable: for the same set-then-get over the same (query, params), the
memory backend's get returns the stored payload, while the Redis backend's
get returns the full metadata envelope — the payload appears only under its
`"result"` key; projecting that key recovers exactly what the memory backend
returns. -/
theorem c9_backend_divergence_amended :
    (∀ (cfg : CacheConfig) (st : RedisStore) (now : Rat) (query : String)
        (v : PyVal) (ttl : Option Int) (params : List (String × String)),
      0 < ttlOrDefault cfg.default_ttl ttl →
      cmGetCachedResult cfg (cmCacheResult cfg st now query v ttl params).2
          now query params = some (cacheEnvelope v now query params) ∧
      pyDictGet "result" (cacheEnvelope v now query params) = some v) ∧
    (∀ (c : MemCache PyVal) (now : Rat) (query : String) (v : PyVal)
        (ttl : Option Int) (params : List (String × String)),
      c.cache.length ≤ c.max_size → 1 ≤ c.max_size →
      c.cache.map Prod.fst = c.access_times.map Prod.fst →
      (∀ p ∈ c.access_times, p.2 ≤ now) →
      0 ≤ ttlOrDefault c.default_ttl ttl →
      (getCachedResult (cacheResult c now query v ttl params).2 now query params).1 =
        some v) := by
  constructor
  · intro cfg st now query v ttl params httl
    constructor
    · simp only [cmCacheResult, cmGetCachedResult, redisSetex, redisGet,
        alistGet_alistSet_self]
      rw [sub_self, if_pos (by exact_mod_cast httl)]
    · rfl
  · intro c now query v ttl params hcap hmax hsync htime httl
    exact memCache_set_get c now query v ttl params hcap hmax hsync htime httl

/-- Witness for the amended C9 at a concrete set-then-get on both backends. -/
theorem c9_backend_divergence_amended_witness :
    (cmGetCachedResult {} (cmCacheResult {} {} 0 "q" payloadC9 none []).2 0 "q" [] =
        some (cacheEnvelope payloadC9 0 "q" []) ∧
      pyDictGet "result" (cacheEnvelope payloadC9 0 "q" []) = some payloadC9) ∧
    (getCachedResult (cacheResult ({} : MemCache PyVal) 0 "q" payloadC9 none []).2
        0 "q" []).1 = some payloadC9 :=
  ⟨c9_backend_divergence_amended.1 {} {} 0 "q" payloadC9 none [] (by decide),
   c9_backend_divergence_amended.2 {} 0 "q" payloadC9 none []
     (by decide) (by decide) rfl (by simp) (by decide)⟩

/-! ### Standard tool registration (`agno_orchestrator.py`, `tools/`) -/

/-- Python `a or b` on optional strings: `None` and `""` are falsy. -/
def pyOrStr (a b : Option String) : Option String :=
  match a with
  | none => b
  | some s => if s = "" then b else some s

/-- Python `bool(x)` on an optional string. -/
def strTruthy : Option String → Bool
  | none => false
  | some s => !(s == "")

/-- `TavilyTool` as constructed: name "Tavily", priority 0,
`is_available() = bool(self.api_key)` where
`self.api_key = api_key or os.getenv("TAVILY_API_KEY")`. -/
def tavilyTool (api_key env_key : Option String) (ex : String → ExecOutcome) : Tool :=
  { name := "Tavily", priority := 0,
    available := strTruthy (pyOrStr api_key env_key), exec := ex }

/-- `JinaTool` as constructed: name "Jina", priority 1, `is_available()`
returns `True` unconditionally (`jina_tool.py` lines 35-39), with or without
an API key. -/
def jinaTool (api_key env_key : Option String) (ex : String → ExecOutcome) : Tool :=
  { name := "Jina", priority := 1, available := true, exec := ex }

/-- `AgnoOrchestrator._register_tools`: register Tavily, then Jina. -/
def standardTools (tavily_key tavily_env jina_key jina_env : Option String)
    (tavily_exec jina_exec : String → ExecOutcome) : List Tool :=
  registerTool (registerTool [] (tavilyTool tavily_key tavily_env tavily_exec))
    (jinaTool jina_key jina_env jina_exec)

/-- The `MCPToolsFramework` as the orchestrator constructs it: the two
standard tools plus whatever ledger has accumulated. -/
def standardFramework (tavily_key tavily_env jina_key jina_env : Option String)
    (tavily_exec jina_exec : String → ExecOutcome) (hist : List HistEntry) : Framework :=
  { tools := standardTools tavily_key tavily_env jina_key jina_env tavily_exec jina_exec,
    execution_history := hist }

/-- C10.  Under the standard registration, for every configuration of API
keys (arguments and environment): Jina reports itself available, so the
available-tools list is never empty and `execute_with_fallback` always takes
the tool-walking branch — its "No available tools found" NotFound branch is
unreachable. -/
theorem c10_no_tools_branch_unreachable (tk te jk je : Option String)
    (tex jex : String → ExecOutcome) (hist : List HistEntry) (now : Rat)
    (query : String) (min_confidence : Rat) :
    (jinaTool jk je jex).available = true ∧
    jinaTool jk je jex ∈ getAvailableTools (standardTools tk te jk je tex jex) ∧
    getAvailableTools (standardTools tk te jk je tex jex) ≠ [] ∧
    executeWithFallback (standardFramework tk te jk je tex jex hist)
        now query min_confidence =
      ewfGo now query min_confidence (standardFramework tk te jk je tex jex hist)
        (getAvailableTools (standardTools tk te jk je tex jex)) none := by
  have hreg : standardTools tk te jk je tex jex =
      [tavilyTool tk te tex, jinaTool jk je jex] := rfl
  have htools : (standardFramework tk te jk je tex jex hist).tools =
      standardTools tk te jk je tex jex := rfl
  cases hb : strTruthy (pyOrStr tk te) with
  | false =>
    have hav : getAvailableTools (standardTools tk te jk je tex jex) =
        [jinaTool jk je jex] := by
      rw [hreg]
      simp only [getAvailableTools, List.filter_cons, List.filter_nil]
      rw [show (tavilyTool tk te tex).available = false from hb]
      rw [show (jinaTool jk je jex).available = true from rfl]
      rfl
    refine ⟨rfl, by rw [hav]; simp, by rw [hav]; simp, ?_⟩
    simp only [executeWithFallback]
    rw [htools, hav]
    rfl
  | true =>
    have hav : getAvailableTools (standardTools tk te jk je tex jex) =
        [tavilyTool tk te tex, jinaTool jk je jex] := by
      rw [hreg]
      simp only [getAvailableTools, List.filter_cons, List.filter_nil]
      rw [show (tavilyTool tk te tex).available = true from hb]
      rw [show (jinaTool jk je jex).available = true from rfl]
      rfl
    refine ⟨rfl, by rw [hav]; simp, by rw [hav]; simp, ?_⟩
    simp only [executeWithFallback]
    rw [htools, hav]
    rfl

/-- A provider call that always raises (stands for any unconfigured client). -/
def raisingExec : String → ExecOutcome := fun _ => .raised "no client" 0

/-- Witness for C10 with no API key anywhere: the available list is still
non-empty and the walk branch is taken. -/
theorem c10_no_tools_branch_unreachable_witness :
    (jinaTool none none raisingExec).available = true ∧
    jinaTool none none raisingExec ∈
      getAvailableTools (standardTools none none none none raisingExec raisingExec) ∧
    getAvailableTools (standardTools none none none none raisingExec raisingExec) ≠ [] ∧
    executeWithFallback (standardFramework none none none none raisingExec raisingExec [])
        0 "q" (mkRat 1 2) =
      ewfGo 0 "q" (mkRat 1 2)
        (standardFramework none none none none raisingExec raisingExec [])
        (getAvailableTools (standardTools none none none none raisingExec raisingExec))
        none :=
  c10_no_tools_branch_unreachable none none none none raisingExec raisingExec [] 0 "q"
    (mkRat 1 2)

end MCP
